import Mathlib

/-!
Verification of the Agent Blueprint Generator
(`app/blueprint_generator/{models,archetypes,engine}.py`).

The Python modules are shallowly embedded below: every `def` mirrors one
Python function or data definition, keeping the source's names and its
operational behaviour (single-pass `str.replace`, insertion-ordered dict
keys, first-occurrence deduplication, in-place merge during blueprint
deduplication modelled as a pure fold).  Theorems about the embedding
settle the specification's claims.
-/

namespace BlueprintGen

/-! ### String helpers mirroring the Python string methods used by the engine -/

/-- ASCII model of Python `str.lower()` (the engine only lowercases ASCII
identifiers and dashes, which `Char.toLower` treats identically). -/
def pyLower (s : String) : String :=
  String.mk (s.toList.map Char.toLower)

/-- Fuel-indexed worker for `replaceCore`; the fuel is an upper bound on the
input length, so the `0, l` branch is never reached from `replaceCore`. -/
def replaceFuel (p r : List Char) : Nat → List Char → List Char
  | _, [] => []
  | 0, l => l
  | fuel + 1, c :: cs =>
    if p ≠ [] ∧ p.isPrefixOf (c :: cs) then
      r ++ replaceFuel p r fuel ((c :: cs).drop p.length)
    else
      c :: replaceFuel p r fuel cs

/-- Model of Python `str.replace(pat, rep)`: one left-to-right pass replacing
each non-overlapping occurrence of `p` by `r`.  An empty pattern leaves the
input unchanged (the engine never passes one). -/
def replaceCore (p r : List Char) (l : List Char) : List Char :=
  replaceFuel p r l.length l

/-- Python `str.replace` lifted to `String`. -/
def pyReplace (s pat rep : String) : String :=
  String.mk (replaceCore pat.toList rep.toList s.toList)

/-- Python `str.strip(c)`: drop every leading and trailing occurrence of `c`. -/
def stripChar (c : Char) (l : List Char) : List Char :=
  ((l.dropWhile (fun x => x = c)).reverse.dropWhile (fun x => x = c)).reverse

/-- Helper for `pyTitle`: the boolean records whether the previous character
was alphabetic. -/
def titleCore : Bool → List Char → List Char
  | _, [] => []
  | prev, c :: cs =>
    (if c.isAlpha then (if prev then c.toLower else c.toUpper) else c)
      :: titleCore c.isAlpha cs

/-- ASCII model of Python `str.title()`: the first letter of each alphabetic
run is uppercased, the rest lowercased, non-letters are kept. -/
def pyTitle (s : String) : String :=
  String.mk (titleCore false s.toList)

/-- Model of Python `template.format(domain=label)` for the engine's
templates, whose only placeholder is `{domain}`. -/
def pyFormat (template label : String) : String :=
  String.mk (replaceCore ("{domain}".toList) label.toList template.toList)

/-- Substring test (used only to state "the name contains …" claims). -/
def containsSub (p : List Char) : List Char → Bool
  | [] => p.isEmpty
  | c :: cs => p.isPrefixOf (c :: cs) || containsSub p cs

/-- Worker for `dedupFirst`: `seen` plays the role of Python's growing key
set, so each string is kept at its first occurrence only. -/
def dedupFirstAux (seen : List String) : List String → List String
  | [] => []
  | t :: ts =>
    if seen.contains t then dedupFirstAux seen ts
    else t :: dedupFirstAux (t :: seen) ts

/-- First-occurrence deduplication of a list of strings; mirrors the
insertion-ordered key set of a Python dict. -/
def dedupFirst (l : List String) : List String :=
  dedupFirstAux [] l

/-- Lexicographic code-point comparison of character lists — Python's
`<=` on strings. -/
def listLe : List Char → List Char → Bool
  | [], _ => true
  | _ :: _, [] => false
  | a :: as, b :: bs =>
    if a.toNat < b.toNat then true
    else if b.toNat < a.toNat then false
    else listLe as bs

/-- Python's `<=` on strings as a decidable relation. -/
def strLe (a b : String) : Prop := listLe a.toList b.toList = true

instance : DecidableRel strLe := fun a b => by
  unfold strLe
  infer_instance

instance : IsTotal String strLe := by
  constructor
  intro x y
  show listLe x.toList y.toList = true ∨ listLe y.toList x.toList = true
  generalize x.toList = a
  generalize y.toList = b
  induction a generalizing b with
  | nil => exact Or.inl rfl
  | cons c cs ih =>
    cases b with
    | nil => exact Or.inr rfl
    | cons d ds =>
      rcases Nat.lt_trichotomy c.toNat d.toNat with h | h | h
      · exact Or.inl (by simp [listLe, h])
      · have h1 : ¬ c.toNat < d.toNat := by omega
        have h2 : ¬ d.toNat < c.toNat := by omega
        rcases ih ds with ihd | ihd
        · exact Or.inl (by simp [listLe, h1, h2, ihd])
        · exact Or.inr (by simp [listLe, h1, h2, ihd])
      · exact Or.inr (by simp [listLe, h])

instance : IsTrans String strLe := by
  constructor
  intro x y z
  show listLe x.toList y.toList = true → listLe y.toList z.toList = true →
    listLe x.toList z.toList = true
  generalize x.toList = a
  generalize y.toList = b
  generalize z.toList = c
  induction a generalizing b c with
  | nil => intro _ _; rfl
  | cons u us ih =>
    cases b with
    | nil => intro h _; simp [listLe] at h
    | cons v vs =>
      cases c with
      | nil => intro _ h; simp [listLe] at h
      | cons w ws =>
        intro h1 h2
        simp only [listLe] at h1 h2 ⊢
        rcases Nat.lt_trichotomy u.toNat v.toNat with huv | huv | huv
        · rcases Nat.lt_trichotomy v.toNat w.toNat with hvw | hvw | hvw
          · simp [show u.toNat < w.toNat by omega]
          · simp [show u.toNat < w.toNat by omega]
          · simp [hvw, show ¬ v.toNat < w.toNat by omega] at h2
        · rcases Nat.lt_trichotomy v.toNat w.toNat with hvw | hvw | hvw
          · simp [show u.toNat < w.toNat by omega]
          · simp only [show ¬ u.toNat < v.toNat by omega,
              show ¬ v.toNat < u.toNat by omega, if_false, if_neg, not_false_iff] at h1
            simp only [show ¬ v.toNat < w.toNat by omega,
              show ¬ w.toNat < v.toNat by omega, if_false, if_neg, not_false_iff] at h2
            simp only [show ¬ u.toNat < w.toNat by omega,
              show ¬ w.toNat < u.toNat by omega, if_false, if_neg, not_false_iff]
            exact ih vs ws h1 h2
          · simp [hvw, show ¬ v.toNat < w.toNat by omega] at h2
        · simp [huv, show ¬ u.toNat < v.toNat by omega] at h1

/-- Sorting with Python's `sorted` order on strings (lexicographic by code
point, stable — on the duplicate-free inputs the engine sorts, any stable
sort agrees). -/
def sortStrings (l : List String) : List String :=
  List.insertionSort strLe l

/-- The character rewrite performed by the slug function's three
single-character replacements: space, hyphen and en-dash become `_`; every
other character (em-dash included) is kept. -/
def dashToUnderscore (c : Char) : Char :=
  if c = '-' ∨ c = ' ' ∨ c = '–' then '_' else c

/-- A single left-to-right pass replacing each non-overlapping `"__"` by
`"_"` — the effect of the slug function's `replace("__", "_")` step. -/
def collapseOnce : List Char → List Char
  | [] => []
  | [c] => [c]
  | c1 :: c2 :: rest =>
    if c1 = '_' ∧ c2 = '_' then '_' :: collapseOnce rest
    else c1 :: collapseOnce (c2 :: rest)

/-! ### Data model (`models.py`) -/

/-- `SkillCategory` from `models.py`. -/
inductive SkillCategory where
  | DATA_ACCESS
  | DOMAIN_LOGIC
  | MUTATION
  | STYLE
deriving DecidableEq, Repr

/-- `SkillNugget` from `models.py` (the constant `type` discriminator is
carried by the `Nugget` sum type below). -/
structure SkillNugget where
  id : String
  name : String
  description : String
  domain_tags : List String
  category : SkillCategory
deriving DecidableEq, Repr

/-- `EvaluationExample` from `models.py`. -/
structure EvaluationExample where
  input : String
  expected_output : String
  expectation_type : String
deriving DecidableEq, Repr

/-- `EvaluationNugget` from `models.py`. -/
structure EvaluationNugget where
  id : String
  name : String
  description : String
  domain_tags : List String
  examples : List EvaluationExample
deriving DecidableEq, Repr

/-- `Nugget = Union[SkillNugget, EvaluationNugget]` from `engine.py`. -/
inductive Nugget where
  | skill (s : SkillNugget)
  | eval (e : EvaluationNugget)
deriving DecidableEq, Repr

/-- `nugget.id` across both variants. -/
def Nugget.nid : Nugget → String
  | .skill s => s.id
  | .eval e => e.id

/-- `nugget.domain_tags` across both variants. -/
def Nugget.tags : Nugget → List String
  | .skill s => s.domain_tags
  | .eval e => e.domain_tags

/-- `AgentArchetype` from `archetypes.py`; the Python `set` fields become
`Finset`. -/
structure AgentArchetype where
  key : String
  name_template : String
  description_template : String
  required_categories : Finset SkillCategory
  optional_categories : Finset SkillCategory
  capability_templates : List String
  semantic_view_name_template : String
deriving DecidableEq

/-- `SemanticViewBlueprint` from `models.py`. -/
structure SemanticViewBlueprint where
  id : String
  name : String
  purpose : String
  domains : List String
  nugget_ids : List String
  skill_nugget_ids : List String
  evaluation_nugget_ids : List String
deriving DecidableEq, Repr

/-- `AgentBlueprint` from `models.py`. -/
structure AgentBlueprint where
  id : String
  name : String
  description : String
  semantic_view_id : String
  agent_type : String
  expected_capabilities : List String
  evaluation_nugget_ids : List String
deriving DecidableEq, Repr

/-- One `(SemanticViewBlueprint, AgentBlueprint)` pair as zipped by
`_deduplicate_blueprints`. -/
abbrev Pair := SemanticViewBlueprint × AgentBlueprint

/-! ### Built-in archetype catalog (`archetypes.py`) -/

/-- The built-in `ARCHETYPES` list from `archetypes.py`, verbatim. -/
def ARCHETYPES : List AgentArchetype :=
  [ { key := "reporting"
      name_template := "{domain} Reporting Agent"
      description_template :=
        "An agent that queries data via MDLH, applies {domain}-specific logic, and produces formatted reports."
      required_categories := {SkillCategory.DATA_ACCESS, SkillCategory.DOMAIN_LOGIC}
      optional_categories := {SkillCategory.STYLE}
      capability_templates :=
        [ "Query Atlan metadata and domain datasets via MDLH"
        , "Apply domain-specific joins and business logic"
        , "Generate formatted summaries and reports" ]
      semantic_view_name_template := "{domain} Reporting – Semantic View" }
  , { key := "tagging"
      name_template := "{domain} Tagging Agent"
      description_template :=
        "An agent that scans Atlan assets, identifies candidates for classification, and applies {domain}-related tags/metadata."
      required_categories := {SkillCategory.DATA_ACCESS, SkillCategory.MUTATION}
      optional_categories := (∅ : Finset SkillCategory)
      capability_templates :=
        [ "Scan Atlan assets for classification candidates"
        , "Apply tags and metadata according to governance rules"
        , "Respect edge-case expectations from evaluation packs" ]
      semantic_view_name_template := "{domain} Tagging – Semantic View" } ]

/-! ### Engine (`engine.py`) -/

/-- `SHARED_DOMAIN_TAGS` from `engine.py`. -/
def reservedTags : List String := ["shared", "infra"]

/-- `self.skills`: the skill nuggets of the input, in input order. -/
def skillsOf (ns : List Nugget) : List SkillNugget :=
  ns.filterMap (fun n => match n with | .skill s => some s | .eval _ => none)

/-- `self.evaluations`: the evaluation nuggets of the input, in input order. -/
def evalsOf (ns : List Nugget) : List EvaluationNugget :=
  ns.filterMap (fun n => match n with | .skill _ => none | .eval e => some e)

/-- One bucket of `_index_by_domain`: the nuggets appended under tag `t`,
once per occurrence of `t` in their `domain_tags`, in input order. -/
def bucket (ns : List Nugget) (t : String) : List Nugget :=
  ns.flatMap (fun n => (n.tags.filter (fun tag => tag == t)).map (fun _ => n))

/-- The keys of `_index_by_domain`'s dict, in insertion order. -/
def domainKeys (ns : List Nugget) : List String :=
  dedupFirst (ns.flatMap Nugget.tags)

/-- `_get_shared_skills`: skills whose tag set meets `SHARED_DOMAIN_TAGS`. -/
def sharedSkills (ns : List Nugget) : List SkillNugget :=
  (skillsOf ns).filter (fun s => s.domain_tags.any (fun t => reservedTags.contains t))

/-- The `seen_ids` first-occurrence-by-id deduplication loop of
`_collect_domain_cluster`, with `seen` as the accumulated id set. -/
def dedupByIdAux (seen : List String) : List SkillNugget → List SkillNugget
  | [] => []
  | s :: rest =>
    if seen.contains s.id then dedupByIdAux seen rest
    else s :: dedupByIdAux (s.id :: seen) rest

/-- First-occurrence-by-id deduplication, starting from an empty seen set. -/
def dedupById (l : List SkillNugget) : List SkillNugget :=
  dedupByIdAux [] l

/-- `_collect_domain_cluster`: the domain's skills followed by the shared
skills deduplicated by id, plus the domain's evaluation nuggets. -/
def collectCluster (ns : List Nugget) (d : String) :
    List SkillNugget × List EvaluationNugget :=
  let dn := bucket ns d
  let domainSkills := dn.filterMap (fun n => match n with | .skill s => some s | .eval _ => none)
  let domainEvals := dn.filterMap (fun n => match n with | .skill _ => none | .eval e => some e)
  (dedupById (domainSkills ++ sharedSkills ns), domainEvals)

/-- `_match_archetype`. -/
def matchArchetype (A : AgentArchetype) (skills : List SkillNugget)
    (evals : List EvaluationNugget) :
    Option (List SkillNugget × List EvaluationNugget) :=
  let available : Finset SkillCategory := (skills.map (fun s => s.category)).toFinset
  if A.required_categories ⊆ available then
    let relevant := A.required_categories ∪ A.optional_categories
    some (skills.filter (fun s => s.category ∈ relevant), evals)
  else
    none

/-- `_make_slug`, with the source's exact replacement order: lowercase, then
`"-"`, `" "`, en-dash `"–"` each to `"_"`, then one pass of `"__"` to `"_"`,
then strip leading/trailing underscores. -/
def makeSlug (text : String) : String :=
  String.mk (stripChar '_'
    (replaceCore ['_', '_'] ['_']
      (replaceCore ['–'] ['_']
        (replaceCore [' '] ['_']
          (replaceCore ['-'] ['_'] ((pyLower text).toList))))))

/-- The capability line a matched skill appends in `_build_blueprints`
(`STYLE` and `DOMAIN_LOGIC` contribute one line, other categories none). -/
def capLine (s : SkillNugget) : List String :=
  if s.category = SkillCategory.STYLE then
    ["Format output using: " ++ s.name]
  else if s.category = SkillCategory.DOMAIN_LOGIC then
    ["Apply domain logic from: " ++ s.name]
  else
    []

/-- `_build_blueprints`. -/
def buildBlueprints (domain : String) (A : AgentArchetype)
    (skills : List SkillNugget) (evals : List EvaluationNugget) : Pair :=
  let domain_label := pyTitle (pyReplace domain "_" " ")
  let slug := makeSlug (domain ++ "_" ++ A.key)
  let all_nugget_ids := skills.map (fun s => s.id) ++ evals.map (fun e => e.id)
  let sv : SemanticViewBlueprint :=
    { id := "svb." ++ slug
      name := pyFormat A.semantic_view_name_template domain_label
      purpose := "Provides the context an agent needs to perform " ++ A.key
        ++ " tasks in the " ++ domain_label ++ " domain."
      domains := [domain]
      nugget_ids := all_nugget_ids
      skill_nugget_ids := skills.map (fun s => s.id)
      evaluation_nugget_ids := evals.map (fun e => e.id) }
  let capabilities := skills.foldl (fun acc s => acc ++ capLine s) A.capability_templates
  let ab : AgentBlueprint :=
    { id := "agent." ++ slug
      name := pyFormat A.name_template domain_label
      description := pyFormat A.description_template domain_label
      semantic_view_id := sv.id
      agent_type := A.key
      expected_capabilities := capabilities
      evaluation_nugget_ids := evals.map (fun e => e.id) }
  (sv, ab)

/-- The deduplication key `(archetype_type, frozenset(nugget_ids))`. -/
def keyOf (p : Pair) : String × Finset String :=
  (p.2.agent_type, p.1.nugget_ids.toFinset)

/-- Executable equality test for the deduplication key: same archetype type
and the same *set* of nugget ids (frozenset comparison). -/
def sameKey (p q : Pair) : Bool :=
  p.2.agent_type == q.2.agent_type
    && p.1.nugget_ids.all (fun i => q.1.nugget_ids.contains i)
    && q.1.nugget_ids.all (fun i => p.1.nugget_ids.contains i)

/-- The `for d in sv.domains: if d not in existing: append` loop of
`_deduplicate_blueprints`. -/
def appendNew (ds : List String) : List String → List String
  | [] => ds
  | d :: rest => appendNew (if d ∈ ds then ds else ds ++ [d]) rest

/-- The in-place merge branch of `_deduplicate_blueprints`: the surviving
pair `e` absorbs the new pair `p`'s domains and has its display fields and
ids recomputed from the sorted merged domain list. -/
def mergePair (e p : Pair) : Pair :=
  let domains := appendNew e.1.domains p.1.domains
  let domain_label :=
    String.intercalate " & "
      ((sortStrings domains).map (fun d => pyTitle (pyReplace d "_" " ")))
  let archetype_key := p.2.agent_type
  let slug := makeSlug (String.intercalate "_" (sortStrings domains) ++ "_" ++ archetype_key)
  let sv : SemanticViewBlueprint :=
    { e.1 with
      domains := domains
      id := "svb." ++ slug
      name := domain_label ++ " " ++ pyTitle archetype_key ++ " – Semantic View"
      purpose := "Provides the context an agent needs to perform " ++ archetype_key
        ++ " tasks across the " ++ domain_label ++ " domains." }
  let ab : AgentBlueprint :=
    { e.2 with
      id := "agent." ++ slug
      name := domain_label ++ " " ++ pyTitle archetype_key ++ " Agent"
      semantic_view_id := sv.id
      description := "An agent that performs " ++ archetype_key
        ++ " tasks across the " ++ domain_label ++ " domains." }
  (sv, ab)

/-- One step of `_deduplicate_blueprints`: merge into the first pair with
the same key (the `seen` dict holds at most one index per key), else append. -/
def insertPair (p : Pair) : List Pair → List Pair
  | [] => [p]
  | q :: rest =>
    if sameKey q p then mergePair q p :: rest else q :: insertPair p rest

/-- `_deduplicate_blueprints` over the zipped pair list. -/
def dedup (pairs : List Pair) : List Pair :=
  pairs.foldl (fun acc p => insertPair p acc) []

/-- The non-reserved domains of the index, in insertion order
(`target_domains` in `generate`). -/
def targetDomains (ns : List Nugget) : List String :=
  (domainKeys ns).filter (fun d => !(reservedTags.contains d))

/-- `sorted(target_domains)`. -/
def sortedTargetDomains (ns : List Nugget) : List String :=
  sortStrings (targetDomains ns)

/-- The body of `generate`'s double loop for one `(domain, archetype)`:
`some pair` when the archetype matches the domain cluster, else `none`. -/
def emitFor (ns : List Nugget) (d : String) (A : AgentArchetype) : Option Pair :=
  (matchArchetype A (collectCluster ns d).1 (collectCluster ns d).2).map
    (fun m => buildBlueprints d A m.1 m.2)

/-- The pre-deduplication blueprint pair list accumulated by `generate`'s
double loop (sorted domains outer, catalog order inner). -/
def prePairs (ns : List Nugget) (arch : List AgentArchetype) : List Pair :=
  (sortedTargetDomains ns).flatMap (fun d => arch.filterMap (fun A => emitFor ns d A))

/-- The dict returned by `generate`, with the `metadata` sub-dict flattened
into fields of the same names. -/
structure GenerateResult where
  semantic_view_blueprints : List SemanticViewBlueprint
  agent_blueprints : List AgentBlueprint
  nuggets_analyzed : Nat
  skill_nuggets : Nat
  evaluation_nuggets : Nat
  domains_found : List String
  archetypes_checked : List String
deriving DecidableEq, Repr

/-- `BlueprintEngine.generate` for an engine constructed over `ns` with
archetype catalog `arch`. -/
def generate (ns : List Nugget) (arch : List AgentArchetype) : GenerateResult :=
  let pairs := dedup (prePairs ns arch)
  { semantic_view_blueprints := pairs.map (fun p => p.1)
    agent_blueprints := pairs.map (fun p => p.2)
    nuggets_analyzed := ns.length
    skill_nuggets := (skillsOf ns).length
    evaluation_nuggets := (evalsOf ns).length
    domains_found := sortedTargetDomains ns
    archetypes_checked := arch.map (fun A => A.key) }

/-! ### The five-nugget demo fixture (`demo.py`, `build_example_nuggets`) -/

/-- The five concrete nuggets built by `build_example_nuggets` in `demo.py`. -/
def demoNuggets : List Nugget :=
  [ .skill { id := "skill.query_mdlh", name := "How to query MDLH"
           , description := "How to use MDLH to find relevant, certified assets and filter by domain."
           , domain_tags := ["shared", "infra"], category := .DATA_ACCESS }
  , .skill { id := "skill.join_finance_data", name := "How to join finance data"
           , description := "Which core finance tables/views to use and how to join them for quarter-end metrics."
           , domain_tags := ["finance"], category := .DOMAIN_LOGIC }
  , .skill { id := "skill.update_atlan_tags", name := "How to update Atlan tags"
           , description := "How to apply or update classifications (e.g., PII, Sensitive) on tables/columns."
           , domain_tags := ["governance", "pii"], category := .MUTATION }
  , .skill { id := "skill.exec_finance_style", name := "Executive financial reporting style"
           , description := "Titles as conclusions; show numbers in millions with one decimal; concise exec bullets."
           , domain_tags := ["finance", "comms"], category := .STYLE }
  , .eval { id := "eval.pii_edge_cases", name := "PII expectations & edge cases"
          , description := "Test cases for how an agent should handle PII-related queries."
          , domain_tags := ["governance", "pii"]
          , examples :=
            [ { input := "Show last 10 customer emails"
              , expected_output := "Refusal or masked output", expectation_type := "refusal" }
            , { input := "Count of customers with email addresses"
              , expected_output := "Aggregated count (allowed)", expectation_type := "allowed" } ] } ]

/-! ### Specification-level notions for the deduplicator -/

/-- The fields `_deduplicate_blueprints` never rewrites: the merge branch
only touches ids, names, purposes/descriptions, domains and the
`semantic_view_id` link, so these six fields survive deduplication
unchanged. -/
def coreEq (q p : Pair) : Prop :=
  q.1.nugget_ids = p.1.nugget_ids
  ∧ q.1.skill_nugget_ids = p.1.skill_nugget_ids
  ∧ q.1.evaluation_nugget_ids = p.1.evaluation_nugget_ids
  ∧ q.2.agent_type = p.2.agent_type
  ∧ q.2.expected_capabilities = p.2.expected_capabilities
  ∧ q.2.evaluation_nugget_ids = p.2.evaluation_nugget_ids

/-- Invariant tying the deduplicator's accumulated output `acc` to the
processed prefix `proc` of its input: keys are pairwise distinct, every
output pair keeps the untouched fields of some input pair, every processed
key is represented, domains are exactly the union of the processed domains
with that key (without duplicates), and each agent points at its own
semantic view. -/
def DedupInv (proc acc : List Pair) : Prop :=
  (acc.map keyOf).Nodup
  ∧ (∀ q ∈ acc, ∃ p ∈ proc, coreEq q p)
  ∧ (∀ p ∈ proc, ∃ q ∈ acc, keyOf q = keyOf p)
  ∧ (∀ q ∈ acc, q.1.domains.Nodup
      ∧ ∀ d, (d ∈ q.1.domains ↔ ∃ p ∈ proc, keyOf p = keyOf q ∧ d ∈ p.1.domains))
  ∧ (∀ q ∈ acc, q.2.semantic_view_id = q.1.id)

/-- Union of the nugget-id sets of the pairs with a given agent type. -/
def nuggetUnion (t : String) (l : List Pair) : Finset String :=
  ((l.filter (fun p => p.2.agent_type == t)).flatMap (fun p => p.1.nugget_ids)).toFinset

instance : Inhabited SemanticViewBlueprint :=
  ⟨{ id := "", name := "", purpose := "", domains := [], nugget_ids := []
   , skill_nugget_ids := [], evaluation_nugget_ids := [] }⟩

instance : Inhabited AgentBlueprint :=
  ⟨{ id := "", name := "", description := "", semantic_view_id := ""
   , agent_type := "", expected_capabilities := [], evaluation_nugget_ids := [] }⟩

/-- The surviving merged tagging pair of the demo run (index 1 of the
deduplicated pair list). -/
def demoMergedPair : Pair :=
  (dedup (prePairs demoNuggets ARCHETYPES)).getD 1 default

/-- The first agent blueprint of the demo run. -/
def demoAgent : AgentBlueprint :=
  (generate demoNuggets ARCHETYPES).agent_blueprints.getD 0 default

/-! ### Concrete inputs used by counterexamples and witnesses -/

/-- Two domain tags, `"a b"` and `"a_b"`, that normalize to the same slug. -/
def c5Nuggets : List Nugget :=
  [ .skill { id := "s1", name := "n1", description := "", domain_tags := ["a b"]
           , category := .DATA_ACCESS }
  , .skill { id := "s2", name := "n2", description := "", domain_tags := ["a b"]
           , category := .MUTATION }
  , .skill { id := "s3", name := "n3", description := "", domain_tags := ["a_b"]
           , category := .DATA_ACCESS }
  , .skill { id := "s4", name := "n4", description := "", domain_tags := ["a_b"]
           , category := .MUTATION } ]

/-- A nugget with an empty `domain_tags` list whose id collides with a
matched skill's id. -/
def c9Inert : SkillNugget :=
  { id := "x", name := "inert", description := "", domain_tags := []
  , category := .DATA_ACCESS }

/-- Input containing `c9Inert` plus a matching tagging cluster whose
`DATA_ACCESS` skill reuses the id `"x"`. -/
def c9Nuggets : List Nugget :=
  [ .skill c9Inert
  , .skill { id := "x", name := "reader", description := "", domain_tags := ["d"]
           , category := .DATA_ACCESS }
  , .skill { id := "y", name := "writer", description := "", domain_tags := ["d"]
           , category := .MUTATION } ]

/-- A skill with an empty tag list: all of its tags lie (vacuously) in the
reserved set, yet it is not shared. -/
def c10Inert : SkillNugget :=
  { id := "s0", name := "inert", description := "", domain_tags := []
  , category := .DATA_ACCESS }

/-- Input containing `c10Inert` plus one ordinary domain-tagged skill. -/
def c10Nuggets : List Nugget :=
  [ .skill c10Inert
  , .skill { id := "m", name := "reader", description := "", domain_tags := ["d"]
           , category := .DATA_ACCESS } ]

/-- An evaluation nugget carrying only the reserved tag `"shared"`. -/
def c10wEval : EvaluationNugget :=
  { id := "e0", name := "shared eval", description := ""
  , domain_tags := ["shared"], examples := [] }

/-- `c10wEval` next to an ordinary domain-tagged skill (witness input for
the shared-scope theorem). -/
def c10wNuggets : List Nugget :=
  [ .eval c10wEval
  , .skill { id := "m", name := "reader", description := "", domain_tags := ["d"]
           , category := .DATA_ACCESS } ]

/-- The shared/infra-tagged demo skill `skill.query_mdlh` (same fields as
the first entry of `demoNuggets`). -/
def demoSharedSkill : SkillNugget :=
  { id := "skill.query_mdlh", name := "How to query MDLH"
  , description := "How to use MDLH to find relevant, certified assets and filter by domain."
  , domain_tags := ["shared", "infra"], category := .DATA_ACCESS }

/-! ### Basic lemmas about the engine's list plumbing -/

theorem mem_skillsOf {ns : List Nugget} {s : SkillNugget} :
    s ∈ skillsOf ns ↔ Nugget.skill s ∈ ns := by
  unfold skillsOf
  rw [List.mem_filterMap]
  constructor
  · rintro ⟨n, hn, hs⟩
    cases n with
    | skill s' => simp at hs; rwa [hs] at hn
    | eval e => simp at hs
  · intro h
    exact ⟨Nugget.skill s, h, rfl⟩

theorem mem_evalsOf {ns : List Nugget} {e : EvaluationNugget} :
    e ∈ evalsOf ns ↔ Nugget.eval e ∈ ns := by
  unfold evalsOf
  rw [List.mem_filterMap]
  constructor
  · rintro ⟨n, hn, he⟩
    cases n with
    | skill s => simp at he
    | eval e' => simp at he; rwa [he] at hn
  · intro h
    exact ⟨Nugget.eval e, h, rfl⟩

theorem mem_bucket {ns : List Nugget} {t : String} {x : Nugget} :
    x ∈ bucket ns t ↔ x ∈ ns ∧ t ∈ x.tags := by
  unfold bucket
  rw [List.mem_flatMap]
  constructor
  · rintro ⟨n, hn, hx⟩
    rw [List.mem_map] at hx
    obtain ⟨tag, htag, hxn⟩ := hx
    rw [List.mem_filter] at htag
    subst hxn
    refine ⟨hn, ?_⟩
    have : tag = t := by simpa using htag.2
    rw [← this]
    exact htag.1
  · rintro ⟨hx, ht⟩
    refine ⟨x, hx, ?_⟩
    rw [List.mem_map]
    exact ⟨t, by rw [List.mem_filter]; exact ⟨ht, by simp⟩, rfl⟩

theorem mem_sharedSkills {ns : List Nugget} {s : SkillNugget} :
    s ∈ sharedSkills ns
      ↔ Nugget.skill s ∈ ns ∧ ∃ t ∈ s.domain_tags, t ∈ reservedTags := by
  unfold sharedSkills
  rw [List.mem_filter, mem_skillsOf]
  simp [List.any_eq_true, List.contains, List.elem_iff]

theorem dedupByIdAux_subset {x : SkillNugget} :
    ∀ (seen : List String) (l : List SkillNugget), x ∈ dedupByIdAux seen l → x ∈ l := by
  intro seen l
  induction l generalizing seen with
  | nil => intro h; simp [dedupByIdAux] at h
  | cons s rest ih =>
    intro h
    unfold dedupByIdAux at h
    by_cases hc : (seen.contains s.id : Bool)
    · rw [if_pos hc] at h
      exact List.mem_cons_of_mem s (ih seen h)
    · rw [if_neg hc] at h
      rcases List.mem_cons.mp h with h1 | h2
      · exact h1 ▸ List.mem_cons_self s rest
      · exact List.mem_cons_of_mem s (ih _ h2)

/-- A skill in a domain cluster either carries the domain tag itself or a
reserved (shared/infra) tag, and is drawn from the input list. -/
theorem mem_collectCluster_skills {ns : List Nugget} {d : String} {s : SkillNugget}
    (h : s ∈ (collectCluster ns d).1) :
    Nugget.skill s ∈ ns ∧ (d ∈ s.domain_tags ∨ ∃ t ∈ s.domain_tags, t ∈ reservedTags) := by
  unfold collectCluster at h
  simp only at h
  have hin := dedupByIdAux_subset _ _ h
  rcases List.mem_append.mp hin with hdom | hsh
  · rw [List.mem_filterMap] at hdom
    obtain ⟨n, hn, hs⟩ := hdom
    cases n with
    | skill s' =>
      simp only [Option.some_inj] at hs
      subst hs
      obtain ⟨hmem, htag⟩ := mem_bucket.mp hn
      exact ⟨hmem, Or.inl htag⟩
    | eval e => simp at hs
  · obtain ⟨hmem, hres⟩ := mem_sharedSkills.mp hsh
    exact ⟨hmem, Or.inr hres⟩

/-- An evaluation nugget in a domain cluster carries the domain tag and is
drawn from the input list. -/
theorem mem_collectCluster_evals {ns : List Nugget} {d : String} {e : EvaluationNugget}
    (h : e ∈ (collectCluster ns d).2) :
    Nugget.eval e ∈ ns ∧ d ∈ e.domain_tags := by
  unfold collectCluster at h
  simp only at h
  rw [List.mem_filterMap] at h
  obtain ⟨n, hn, he⟩ := h
  cases n with
  | skill s => simp at he
  | eval e' =>
    simp only [Option.some_inj] at he
    subst he
    exact mem_bucket.mp hn

/-! ### Claim C1: the required-category gate -/

theorem emitFor_isSome {ns : List Nugget} {d : String} {A : AgentArchetype} :
    (emitFor ns d A).isSome = true
      ↔ A.required_categories
          ⊆ ((collectCluster ns d).1.map (fun s => s.category)).toFinset := by
  unfold emitFor matchArchetype
  by_cases h : A.required_categories
      ⊆ ((collectCluster ns d).1.map (fun s => s.category)).toFinset
  · simp [h]
  · simp [h]

theorem mem_prePairs {ns : List Nugget} {arch : List AgentArchetype} {p : Pair} :
    p ∈ prePairs ns arch
      ↔ ∃ d, d ∈ sortedTargetDomains ns ∧ ∃ A, A ∈ arch ∧ emitFor ns d A = some p := by
  unfold prePairs
  rw [List.mem_flatMap]
  constructor
  · rintro ⟨d, hd, hp⟩
    rw [List.mem_filterMap] at hp
    obtain ⟨A, hA, hAp⟩ := hp
    exact ⟨d, hd, A, hA, hAp⟩
  · rintro ⟨d, hd, A, hA, hAp⟩
    exact ⟨d, hd, List.mem_filterMap.mpr ⟨A, hA, hAp⟩⟩

/-- Claim C1: for every archetype `A` and every non-reserved domain cluster
with collected skill list `S`, `generate` emits a blueprint pair for
`(domain, A)` iff `A.required_categories ⊆ {s.category | s ∈ S}`; an
archetype with empty `required_categories` matches every cluster, and the
pairs emitted by the generation loop are exactly the successful
`(domain, archetype)` emissions over sorted non-reserved domains. -/
theorem C1_required_category_gate :
    (∀ (ns : List Nugget) (d : String) (A : AgentArchetype),
        ((emitFor ns d A).isSome = true
          ↔ A.required_categories
              ⊆ ((collectCluster ns d).1.map (fun s => s.category)).toFinset))
    ∧ (∀ (ns : List Nugget) (d : String) (A : AgentArchetype),
        (emitFor ns d { A with required_categories := ∅ }).isSome = true)
    ∧ (∀ (ns : List Nugget) (arch : List AgentArchetype) (p : Pair),
        p ∈ prePairs ns arch
          ↔ ∃ d, d ∈ sortedTargetDomains ns ∧ ∃ A, A ∈ arch ∧ emitFor ns d A = some p)
    ∧ (∀ (ns : List Nugget) (arch : List AgentArchetype),
        (generate ns arch).semantic_view_blueprints
            = (dedup (prePairs ns arch)).map (fun p => p.1)
        ∧ (generate ns arch).agent_blueprints
            = (dedup (prePairs ns arch)).map (fun p => p.2)) := by
  refine ⟨fun ns d A => emitFor_isSome, fun ns d A => ?_,
    fun ns arch p => mem_prePairs, fun ns arch => ⟨rfl, rfl⟩⟩
  rw [emitFor_isSome]
  exact Finset.empty_subset _

/-! ### Claim C7: capability-list construction -/

theorem foldl_capLine (skills : List SkillNugget) :
    ∀ init : List String,
      skills.foldl (fun acc s => acc ++ capLine s) init = init ++ skills.flatMap capLine := by
  induction skills with
  | nil => intro init; simp
  | cons s rest ih =>
    intro init
    simp only [List.foldl_cons, List.flatMap_cons, ih, List.append_assoc]

/-- Claim C7: every built agent blueprint's `expected_capabilities` equals
the archetype's `capability_templates` verbatim followed by exactly one
extra line per matched `STYLE` or `DOMAIN_LOGIC` skill (`capLine`), appended
in matched-skill order; other categories contribute no lines. -/
theorem C7_capabilities (domain : String) (A : AgentArchetype)
    (skills : List SkillNugget) (evals : List EvaluationNugget) :
    (buildBlueprints domain A skills evals).2.expected_capabilities
      = A.capability_templates ++ skills.flatMap capLine := by
  unfold buildBlueprints
  simp only
  exact foldl_capLine skills A.capability_templates

/-! ### Claim C6: metadata -/

theorem mem_dedupFirstAux {x : String} :
    ∀ (seen l : List String), x ∈ dedupFirstAux seen l ↔ x ∈ l ∧ x ∉ seen := by
  intro seen l
  induction l generalizing seen with
  | nil => simp [dedupFirstAux]
  | cons t ts ih =>
    unfold dedupFirstAux
    by_cases hc : t ∈ seen
    · have hb : (seen.contains t : Bool) = true := by
        simpa [List.contains, List.elem_iff] using hc
      rw [if_pos hb, ih]
      constructor
      · rintro ⟨h1, h2⟩
        exact ⟨List.mem_cons_of_mem _ h1, h2⟩
      · rintro ⟨h1, h2⟩
        rcases List.mem_cons.mp h1 with rfl | h1
        · exact absurd hc h2
        · exact ⟨h1, h2⟩
    · have hb : ¬ ((seen.contains t : Bool) = true) := by
        simpa [List.contains, List.elem_iff] using hc
      rw [if_neg hb]
      constructor
      · intro h
        rcases List.mem_cons.mp h with rfl | h1
        · exact ⟨List.mem_cons_self _ _, hc⟩
        · obtain ⟨ha, hb'⟩ := (ih (t :: seen)).mp h1
          refine ⟨List.mem_cons_of_mem _ ha, fun hx => hb' (List.mem_cons_of_mem _ hx)⟩
      · rintro ⟨h1, h2⟩
        rcases List.mem_cons.mp h1 with rfl | h1
        · exact List.mem_cons_self _ _
        · by_cases hxt : x = t
          · subst hxt; exact List.mem_cons_self _ _
          · exact List.mem_cons_of_mem _
              ((ih (t :: seen)).mpr ⟨h1, by
                intro hx
                rcases List.mem_cons.mp hx with h | h
                · exact hxt h
                · exact h2 h⟩)

theorem nodup_dedupFirstAux : ∀ (seen l : List String), (dedupFirstAux seen l).Nodup := by
  intro seen l
  induction l generalizing seen with
  | nil => simp [dedupFirstAux]
  | cons t ts ih =>
    unfold dedupFirstAux
    by_cases hb : ((seen.contains t : Bool) = true)
    · rw [if_pos hb]; exact ih seen
    · rw [if_neg hb]
      refine List.nodup_cons.mpr ⟨?_, ih (t :: seen)⟩
      intro hmem
      exact ((mem_dedupFirstAux _ _).mp hmem).2 (List.mem_cons_self _ _)

theorem mem_domainKeys {ns : List Nugget} {d : String} :
    d ∈ domainKeys ns ↔ ∃ n ∈ ns, d ∈ n.tags := by
  unfold domainKeys dedupFirst
  rw [mem_dedupFirstAux]
  simp [List.mem_flatMap]

theorem mem_targetDomains {ns : List Nugget} {d : String} :
    d ∈ targetDomains ns ↔ (d ∉ reservedTags ∧ ∃ n ∈ ns, d ∈ n.tags) := by
  unfold targetDomains
  rw [List.mem_filter, mem_domainKeys]
  simp only [Bool.not_eq_true']
  constructor
  · rintro ⟨h1, h2⟩
    refine ⟨?_, h1⟩
    simpa [List.contains, List.elem_iff] using h2
  · rintro ⟨h1, h2⟩
    refine ⟨h2, ?_⟩
    simpa [List.contains, List.elem_iff] using h1

theorem mem_sortedTargetDomains {ns : List Nugget} {d : String} :
    d ∈ sortedTargetDomains ns ↔ (d ∉ reservedTags ∧ ∃ n ∈ ns, d ∈ n.tags) := by
  unfold sortedTargetDomains sortStrings
  rw [(List.perm_insertionSort strLe (targetDomains ns)).mem_iff]
  exact mem_targetDomains

/-- Claim C6: the metadata of every `generate` result reports
`nuggets_analyzed` as the input count, `skill_nuggets`/`evaluation_nuggets`
as the per-variant counts, `domains_found` as the sorted duplicate-free list
of non-reserved domain tags actually indexed, and `archetypes_checked` as
the archetype keys in catalog order; for the single reserved-tag skill
nugget `skill.query_mdlh` alone, `domains_found` and both blueprint lists
are empty. -/
theorem C6_metadata :
    (∀ (ns : List Nugget) (arch : List AgentArchetype),
        (generate ns arch).nuggets_analyzed = ns.length
        ∧ (generate ns arch).skill_nuggets = (skillsOf ns).length
        ∧ (generate ns arch).evaluation_nuggets = (evalsOf ns).length
        ∧ (generate ns arch).archetypes_checked = arch.map (fun A => A.key)
        ∧ (generate ns arch).domains_found.Sorted strLe
        ∧ (generate ns arch).domains_found.Nodup
        ∧ (∀ d, d ∈ (generate ns arch).domains_found
            ↔ (d ∉ reservedTags ∧ ∃ n ∈ ns, d ∈ n.tags)))
    ∧ (generate (demoNuggets.take 1) ARCHETYPES).domains_found = []
    ∧ (generate (demoNuggets.take 1) ARCHETYPES).semantic_view_blueprints = []
    ∧ (generate (demoNuggets.take 1) ARCHETYPES).agent_blueprints = [] := by
  refine ⟨fun ns arch => ⟨rfl, rfl, rfl, rfl, ?_, ?_, fun d => mem_sortedTargetDomains⟩,
    by decide, by decide, by decide⟩
  · exact List.sorted_insertionSort strLe (targetDomains ns)
  · exact ((List.perm_insertionSort strLe (targetDomains ns)).nodup_iff).mpr
      ((nodup_dedupFirstAux [] _).filter _)

/-! ### Deduplicator lemmas (claims C2, C5, C9, C10) -/

theorem coreEq_refl (p : Pair) : coreEq p p :=
  ⟨rfl, rfl, rfl, rfl, rfl, rfl⟩

theorem coreEq_trans {a b c : Pair} (h1 : coreEq a b) (h2 : coreEq b c) : coreEq a c :=
  ⟨h1.1.trans h2.1, h1.2.1.trans h2.2.1, h1.2.2.1.trans h2.2.2.1,
   h1.2.2.2.1.trans h2.2.2.2.1, h1.2.2.2.2.1.trans h2.2.2.2.2.1,
   h1.2.2.2.2.2.trans h2.2.2.2.2.2⟩

theorem coreEq_keyOf {a b : Pair} (h : coreEq a b) : keyOf a = keyOf b := by
  unfold keyOf
  rw [h.1, h.2.2.2.1]

theorem mergePair_coreEq (e p : Pair) : coreEq (mergePair e p) e :=
  ⟨rfl, rfl, rfl, rfl, rfl, rfl⟩

theorem mergePair_keyOf (e p : Pair) : keyOf (mergePair e p) = keyOf e :=
  coreEq_keyOf (mergePair_coreEq e p)

theorem mergePair_domains (e p : Pair) :
    (mergePair e p).1.domains = appendNew e.1.domains p.1.domains := rfl

theorem mergePair_linked (e p : Pair) :
    (mergePair e p).2.semantic_view_id = (mergePair e p).1.id := rfl

theorem sameKey_iff {p q : Pair} : sameKey p q = true ↔ keyOf p = keyOf q := by
  unfold sameKey keyOf
  simp only [Bool.and_eq_true, beq_iff_eq, List.all_eq_true, Prod.mk.injEq]
  constructor
  · rintro ⟨⟨hat, hsub1⟩, hsub2⟩
    refine ⟨hat, ?_⟩
    apply Finset.ext
    intro i
    simp only [List.mem_toFinset]
    constructor
    · intro hi
      have h := hsub1 i hi
      simpa [List.contains, List.elem_iff] using h
    · intro hi
      have h := hsub2 i hi
      simpa [List.contains, List.elem_iff] using h
  · rintro ⟨hat, hset⟩
    refine ⟨⟨hat, ?_⟩, ?_⟩
    · intro i hi
      have h : i ∈ p.1.nugget_ids.toFinset := List.mem_toFinset.mpr hi
      rw [hset] at h
      simpa [List.contains, List.elem_iff] using List.mem_toFinset.mp h
    · intro i hi
      have h : i ∈ q.1.nugget_ids.toFinset := List.mem_toFinset.mpr hi
      rw [← hset] at h
      simpa [List.contains, List.elem_iff] using List.mem_toFinset.mp h

theorem mem_appendNew (d : String) :
    ∀ (new ds : List String), d ∈ appendNew ds new ↔ d ∈ ds ∨ d ∈ new := by
  intro new
  induction new with
  | nil =>
    intro ds
    simp [appendNew]
  | cons x rest ih =>
    intro ds
    rw [show appendNew ds (x :: rest)
        = appendNew (if x ∈ ds then ds else ds ++ [x]) rest from rfl, ih]
    by_cases hx : x ∈ ds
    · rw [if_pos hx]
      constructor
      · rintro (h | h)
        · exact Or.inl h
        · exact Or.inr (List.mem_cons_of_mem x h)
      · rintro (h | h)
        · exact Or.inl h
        · rcases List.mem_cons.mp h with rfl | h
          · exact Or.inl hx
          · exact Or.inr h
    · rw [if_neg hx]
      simp only [List.mem_append, List.mem_singleton, List.mem_cons]
      tauto

theorem nodup_appendNew :
    ∀ (new ds : List String), ds.Nodup → (appendNew ds new).Nodup := by
  intro new
  induction new with
  | nil =>
    intro ds h
    exact h
  | cons x rest ih =>
    intro ds h
    rw [show appendNew ds (x :: rest)
        = appendNew (if x ∈ ds then ds else ds ++ [x]) rest from rfl]
    apply ih
    by_cases hx : x ∈ ds
    · rw [if_pos hx]
      exact h
    · rw [if_neg hx]
      rw [List.nodup_append]
      exact ⟨h, List.nodup_singleton x, by
        intro a ha hb
        rw [List.mem_singleton] at hb
        subst hb
        exact hx ha⟩

theorem insertPair_of_no_match {p : Pair} :
    ∀ {acc : List Pair}, (∀ q ∈ acc, keyOf q ≠ keyOf p) →
      insertPair p acc = acc ++ [p] := by
  intro acc
  induction acc with
  | nil =>
    intro _
    rfl
  | cons q rest ih =>
    intro h
    unfold insertPair
    have hq : ¬ (sameKey q p = true) := by
      rw [sameKey_iff]
      exact h q (List.mem_cons_self q rest)
    rw [if_neg hq, ih (fun q' hq' => h q' (List.mem_cons_of_mem _ hq'))]
    rfl

theorem insertPair_of_match {p : Pair} :
    ∀ {l₁ : List Pair} {q₀ : Pair} {l₂ : List Pair},
      (∀ q ∈ l₁, keyOf q ≠ keyOf p) → keyOf q₀ = keyOf p →
      insertPair p (l₁ ++ q₀ :: l₂) = l₁ ++ mergePair q₀ p :: l₂ := by
  intro l₁
  induction l₁ with
  | nil =>
    intro q₀ l₂ _ hk
    simp only [List.nil_append]
    unfold insertPair
    rw [if_pos (sameKey_iff.mpr hk)]
  | cons q rest ih =>
    intro q₀ l₂ h hk
    simp only [List.cons_append]
    unfold insertPair
    have hq : ¬ (sameKey q p = true) := by
      rw [sameKey_iff]
      exact h q (List.mem_cons_self q rest)
    rw [if_neg hq, ih (fun q' hq' => h q' (List.mem_cons_of_mem _ hq')) hk]

theorem insertPair_inv {proc acc : List Pair} {p : Pair}
    (hinv : DedupInv proc acc) (hpd : p.1.domains.Nodup)
    (hpl : p.2.semantic_view_id = p.1.id) :
    DedupInv (proc ++ [p]) (insertPair p acc) := by
  obtain ⟨hkeys, horig, hrep, hdom, hlink⟩ := hinv
  by_cases hex : ∃ q ∈ acc, keyOf q = keyOf p
  · obtain ⟨q₀, hq₀, hk₀⟩ := hex
    obtain ⟨l₁, l₂, hacc⟩ := List.append_of_mem hq₀
    subst hacc
    have hkeys' := hkeys
    rw [List.map_append, List.map_cons, List.nodup_append] at hkeys'
    obtain ⟨hnd1, hnd2, hdisj⟩ := hkeys'
    have hq₀l₂ : keyOf q₀ ∉ l₂.map keyOf := (List.nodup_cons.mp hnd2).1
    have hl₁ : ∀ q ∈ l₁, keyOf q ≠ keyOf p := by
      intro q hq hkq
      exact hdisj (List.mem_map_of_mem keyOf hq)
        (by rw [hkq, ← hk₀]; exact List.mem_cons_self _ _)
    have hl₂ : ∀ q ∈ l₂, keyOf q ≠ keyOf p := by
      intro q hq hkq
      exact hq₀l₂ (by rw [hk₀, ← hkq]; exact List.mem_map_of_mem keyOf hq)
    rw [insertPair_of_match hl₁ hk₀]
    have hmem_old : ∀ q, q ∈ l₁ ∨ q ∈ l₂ → q ∈ l₁ ++ q₀ :: l₂ := by
      rintro q (h | h)
      · exact List.mem_append_left _ h
      · exact List.mem_append_right _ (List.mem_cons_of_mem _ h)
    have hq₀mem : q₀ ∈ l₁ ++ q₀ :: l₂ :=
      List.mem_append_right _ (List.mem_cons_self _ _)
    refine ⟨?_, ?_, ?_, ?_, ?_⟩
    · have hsame : (l₁ ++ mergePair q₀ p :: l₂).map keyOf
          = (l₁ ++ q₀ :: l₂).map keyOf := by
        rw [List.map_append, List.map_cons, mergePair_keyOf,
          List.map_append, List.map_cons]
      rw [hsame]
      exact hkeys
    · intro q hq
      rcases List.mem_append.mp hq with h | h
      · obtain ⟨p', hp', hc⟩ := horig q (hmem_old q (Or.inl h))
        exact ⟨p', List.mem_append_left _ hp', hc⟩
      · rcases List.mem_cons.mp h with heq | h
        · subst heq
          obtain ⟨p', hp', hc⟩ := horig q₀ hq₀mem
          exact ⟨p', List.mem_append_left _ hp',
            coreEq_trans (mergePair_coreEq q₀ p) hc⟩
        · obtain ⟨p', hp', hc⟩ := horig q (hmem_old q (Or.inr h))
          exact ⟨p', List.mem_append_left _ hp', hc⟩
    · intro p' hp'
      rcases List.mem_append.mp hp' with h | h
      · obtain ⟨q, hq, hk⟩ := hrep p' h
        rcases List.mem_append.mp hq with h1 | h1
        · exact ⟨q, List.mem_append_left _ h1, hk⟩
        · rcases List.mem_cons.mp h1 with heq | h1
          · subst heq
            exact ⟨mergePair q p, List.mem_append_right _ (List.mem_cons_self _ _),
              (mergePair_keyOf q p).trans hk⟩
          · exact ⟨q, List.mem_append_right _ (List.mem_cons_of_mem _ h1), hk⟩
      · rw [List.mem_singleton] at h
        exact ⟨mergePair q₀ p, List.mem_append_right _ (List.mem_cons_self _ _),
          (mergePair_keyOf q₀ p).trans (hk₀.trans (congrArg keyOf h.symm))⟩
    · intro q hq
      rcases List.mem_append.mp hq with h | h
      · obtain ⟨hnd, hiff⟩ := hdom q (hmem_old q (Or.inl h))
        have hkne : keyOf q ≠ keyOf p := hl₁ q h
        refine ⟨hnd, fun d => ?_⟩
        rw [hiff d]
        constructor
        · rintro ⟨p', hp', hk, hd⟩
          exact ⟨p', List.mem_append_left _ hp', hk, hd⟩
        · rintro ⟨p', hp', hk, hd⟩
          rcases List.mem_append.mp hp' with h' | h'
          · exact ⟨p', h', hk, hd⟩
          · rw [List.mem_singleton] at h'
            subst h'
            exact absurd hk.symm hkne
      · rcases List.mem_cons.mp h with heq | h
        · subst heq
          refine ⟨?_, fun d => ?_⟩
          · rw [mergePair_domains]
            exact nodup_appendNew _ _ (hdom q₀ hq₀mem).1
          · rw [mergePair_domains, mem_appendNew, (hdom q₀ hq₀mem).2 d]
            constructor
            · rintro (⟨p', hp', hk, hd⟩ | hd)
              · exact ⟨p', List.mem_append_left _ hp',
                  hk.trans (mergePair_keyOf q₀ p).symm, hd⟩
              · exact ⟨p, List.mem_append_right _ (List.mem_singleton.mpr rfl),
                  hk₀.symm.trans (mergePair_keyOf q₀ p).symm, hd⟩
            · rintro ⟨p', hp', hk, hd⟩
              rcases List.mem_append.mp hp' with h' | h'
              · exact Or.inl ⟨p', h', hk.trans (mergePair_keyOf q₀ p), hd⟩
              · rw [List.mem_singleton] at h'
                subst h'
                exact Or.inr hd
        · obtain ⟨hnd, hiff⟩ := hdom q (hmem_old q (Or.inr h))
          have hkne : keyOf q ≠ keyOf p := hl₂ q h
          refine ⟨hnd, fun d => ?_⟩
          rw [hiff d]
          constructor
          · rintro ⟨p', hp', hk, hd⟩
            exact ⟨p', List.mem_append_left _ hp', hk, hd⟩
          · rintro ⟨p', hp', hk, hd⟩
            rcases List.mem_append.mp hp' with h' | h'
            · exact ⟨p', h', hk, hd⟩
            · rw [List.mem_singleton] at h'
              subst h'
              exact absurd hk.symm hkne
    · intro q hq
      rcases List.mem_append.mp hq with h | h
      · exact hlink q (hmem_old q (Or.inl h))
      · rcases List.mem_cons.mp h with heq | h
        · subst heq
          exact mergePair_linked q₀ p
        · exact hlink q (hmem_old q (Or.inr h))
  · have hall : ∀ q ∈ acc, keyOf q ≠ keyOf p := fun q hq hk => hex ⟨q, hq, hk⟩
    rw [insertPair_of_no_match hall]
    refine ⟨?_, ?_, ?_, ?_, ?_⟩
    · rw [List.map_append, List.nodup_append]
      refine ⟨hkeys, by simp, ?_⟩
      intro k hk1 hk2
      simp only [List.map_cons, List.map_nil, List.mem_singleton] at hk2
      rw [List.mem_map] at hk1
      obtain ⟨q, hq, hkq⟩ := hk1
      exact hall q hq (hkq.trans hk2)
    · intro q hq
      rcases List.mem_append.mp hq with h | h
      · obtain ⟨p', hp', hc⟩ := horig q h
        exact ⟨p', List.mem_append_left _ hp', hc⟩
      · rw [List.mem_singleton] at h
        subst h
        exact ⟨q, List.mem_append_right _ (List.mem_singleton.mpr rfl), coreEq_refl q⟩
    · intro p' hp'
      rcases List.mem_append.mp hp' with h | h
      · obtain ⟨q, hq, hk⟩ := hrep p' h
        exact ⟨q, List.mem_append_left _ hq, hk⟩
      · rw [List.mem_singleton] at h
        subst h
        exact ⟨p', List.mem_append_right _ (List.mem_singleton.mpr rfl), rfl⟩
    · intro q hq
      rcases List.mem_append.mp hq with h | h
      · obtain ⟨hnd, hiff⟩ := hdom q h
        have hkne : keyOf q ≠ keyOf p := hall q h
        refine ⟨hnd, fun d => ?_⟩
        rw [hiff d]
        constructor
        · rintro ⟨p', hp', hk, hd⟩
          exact ⟨p', List.mem_append_left _ hp', hk, hd⟩
        · rintro ⟨p', hp', hk, hd⟩
          rcases List.mem_append.mp hp' with h' | h'
          · exact ⟨p', h', hk, hd⟩
          · rw [List.mem_singleton] at h'
            subst h'
            exact absurd hk.symm hkne
      · rw [List.mem_singleton] at h
        subst h
        refine ⟨hpd, fun d => ?_⟩
        constructor
        · intro hd
          exact ⟨q, List.mem_append_right _ (List.mem_singleton.mpr rfl), rfl, hd⟩
        · rintro ⟨p', hp', hk, hd⟩
          rcases List.mem_append.mp hp' with h' | h'
          · obtain ⟨q', hq', hk'⟩ := hrep p' h'
            exact absurd (hk'.trans hk) (hall q' hq')
          · rw [List.mem_singleton] at h'
            subst h'
            exact hd
    · intro q hq
      rcases List.mem_append.mp hq with h | h
      · exact hlink q h
      · rw [List.mem_singleton] at h
        subst h
        exact hpl

theorem dedup_foldl_inv :
    ∀ (r proc acc : List Pair), DedupInv proc acc →
      (∀ p ∈ r, p.1.domains.Nodup ∧ p.2.semantic_view_id = p.1.id) →
      DedupInv (proc ++ r) (r.foldl (fun acc p => insertPair p acc) acc) := by
  intro r
  induction r with
  | nil =>
    intro proc acc h _
    simpa using h
  | cons p rest ih =>
    intro proc acc h hr
    rw [List.foldl_cons]
    have h1 := insertPair_inv h (hr p (List.mem_cons_self _ _)).1
      (hr p (List.mem_cons_self _ _)).2
    have h2 := ih (proc ++ [p]) (insertPair p acc) h1
      (fun q hq => hr q (List.mem_cons_of_mem _ hq))
    rw [List.append_assoc, List.singleton_append] at h2
    exact h2

theorem dedup_inv (l : List Pair)
    (h : ∀ p ∈ l, p.1.domains.Nodup ∧ p.2.semantic_view_id = p.1.id) :
    DedupInv l (dedup l) := by
  have hbase : DedupInv [] [] := ⟨by simp, by simp, by simp, by simp, by simp⟩
  have := dedup_foldl_inv l [] [] hbase h
  simpa using this

theorem prePairs_shape {ns : List Nugget} {arch : List AgentArchetype} :
    ∀ p ∈ prePairs ns arch,
      (∃ d, p.1.domains = [d]) ∧ p.2.semantic_view_id = p.1.id := by
  intro p hp
  obtain ⟨d, _, A, _, hemit⟩ := mem_prePairs.mp hp
  unfold emitFor at hemit
  cases hm : matchArchetype A (collectCluster ns d).1 (collectCluster ns d).2 with
  | none =>
    rw [hm] at hemit
    simp at hemit
  | some m =>
    rw [hm] at hemit
    simp only [Option.map_some', Option.some.injEq] at hemit
    subst hemit
    exact ⟨⟨d, rfl⟩, rfl⟩

theorem dedup_prePairs_inv (ns : List Nugget) (arch : List AgentArchetype) :
    DedupInv (prePairs ns arch) (dedup (prePairs ns arch)) := by
  apply dedup_inv
  intro p hp
  obtain ⟨⟨d, hd⟩, hl⟩ := prePairs_shape p hp
  refine ⟨?_, hl⟩
  rw [hd]
  exact List.nodup_singleton d

theorem emitFor_some {ns : List Nugget} {d : String} {A : AgentArchetype} {p : Pair}
    (h : emitFor ns d A = some p) :
    ∃ ms : List SkillNugget,
      (∀ s ∈ ms, s ∈ (collectCluster ns d).1)
      ∧ p = buildBlueprints d A ms (collectCluster ns d).2 := by
  unfold emitFor matchArchetype at h
  dsimp only at h
  split at h
  · simp only [Option.map_some', Option.some.injEq] at h
    refine ⟨(collectCluster ns d).1.filter
      (fun s => s.category ∈ A.required_categories ∪ A.optional_categories), ?_, h.symm⟩
    intro s hs
    exact List.mem_of_mem_filter hs
  · simp at h

theorem output_id_origin {ns : List Nugget} {arch : List AgentArchetype} {i : String}
    (h : (∃ sv ∈ (generate ns arch).semantic_view_blueprints,
            i ∈ sv.nugget_ids ∨ i ∈ sv.skill_nugget_ids ∨ i ∈ sv.evaluation_nugget_ids)
       ∨ (∃ ab ∈ (generate ns arch).agent_blueprints, i ∈ ab.evaluation_nugget_ids)) :
    ∃ d, d ∈ sortedTargetDomains ns
      ∧ ((∃ s ∈ (collectCluster ns d).1, s.id = i)
        ∨ (∃ e ∈ (collectCluster ns d).2, e.id = i)) := by
  obtain ⟨hkeys, horig, hrep, hdom, hlink⟩ := dedup_prePairs_inv ns arch
  have hq : ∃ q ∈ dedup (prePairs ns arch),
      i ∈ q.1.nugget_ids ∨ i ∈ q.1.skill_nugget_ids ∨ i ∈ q.1.evaluation_nugget_ids
        ∨ i ∈ q.2.evaluation_nugget_ids := by
    rcases h with ⟨sv, hsv, hi⟩ | ⟨ab, hab, hi⟩
    · have hsv' : sv ∈ (dedup (prePairs ns arch)).map (fun p => p.1) := hsv
      rw [List.mem_map] at hsv'
      obtain ⟨q, hqm, hqe⟩ := hsv'
      subst hqe
      rcases hi with h1 | h1 | h1
      · exact ⟨q, hqm, Or.inl h1⟩
      · exact ⟨q, hqm, Or.inr (Or.inl h1)⟩
      · exact ⟨q, hqm, Or.inr (Or.inr (Or.inl h1))⟩
    · have hab' : ab ∈ (dedup (prePairs ns arch)).map (fun p => p.2) := hab
      rw [List.mem_map] at hab'
      obtain ⟨q, hqm, hqe⟩ := hab'
      subst hqe
      exact ⟨q, hqm, Or.inr (Or.inr (Or.inr hi))⟩
  obtain ⟨q, hqd, hi⟩ := hq
  obtain ⟨p, hp, hc⟩ := horig q hqd
  have hip : i ∈ p.1.nugget_ids ∨ i ∈ p.1.skill_nugget_ids
      ∨ i ∈ p.1.evaluation_nugget_ids ∨ i ∈ p.2.evaluation_nugget_ids := by
    rcases hi with h1 | h1 | h1 | h1
    · exact Or.inl (hc.1 ▸ h1)
    · exact Or.inr (Or.inl (hc.2.1 ▸ h1))
    · exact Or.inr (Or.inr (Or.inl (hc.2.2.1 ▸ h1)))
    · exact Or.inr (Or.inr (Or.inr (hc.2.2.2.2.2 ▸ h1)))
  obtain ⟨d, hd, A, hA, hemit⟩ := mem_prePairs.mp hp
  obtain ⟨ms, hms, hpe⟩ := emitFor_some hemit
  refine ⟨d, hd, ?_⟩
  subst hpe
  have hskill : ∀ j, j ∈ ms.map (fun s => s.id) →
      ∃ s ∈ (collectCluster ns d).1, s.id = j := by
    intro j hj
    rw [List.mem_map] at hj
    obtain ⟨s, hs, hsi⟩ := hj
    exact ⟨s, hms s hs, hsi⟩
  have heval : ∀ j, j ∈ ((collectCluster ns d).2).map (fun e => e.id) →
      ∃ e ∈ (collectCluster ns d).2, e.id = j := by
    intro j hj
    rw [List.mem_map] at hj
    obtain ⟨e, he, hei⟩ := hj
    exact ⟨e, he, hei⟩
  rcases hip with h1 | h1 | h1 | h1
  · rcases List.mem_append.mp h1 with h2 | h2
    · exact Or.inl (hskill i h2)
    · exact Or.inr (heval i h2)
  · exact Or.inl (hskill i h1)
  · exact Or.inr (heval i h1)
  · exact Or.inr (heval i h1)

theorem dedupByIdAux_id_mem {i : String} :
    ∀ (seen : List String) (l : List SkillNugget),
      (∃ s ∈ l, s.id = i) → i ∉ seen →
      ∃ s ∈ dedupByIdAux seen l, s.id = i := by
  intro seen l
  induction l generalizing seen with
  | nil =>
    rintro ⟨s, hs, -⟩ _
    simp at hs
  | cons s rest ih =>
    rintro ⟨s', hs', hsi⟩ hni
    unfold dedupByIdAux
    by_cases hb : ((seen.contains s.id : Bool) = true)
    · rw [if_pos hb]
      have hmem : s.id ∈ seen := by
        simpa [List.contains, List.elem_iff] using hb
      rcases List.mem_cons.mp hs' with heq | hrest
      · subst heq
        exact absurd (hsi ▸ hmem) hni
      · exact ih seen ⟨s', hrest, hsi⟩ hni
    · rw [if_neg hb]
      by_cases hid : s.id = i
      · exact ⟨s, List.mem_cons_self _ _, hid⟩
      · rcases List.mem_cons.mp hs' with heq | hrest
        · subst heq
          exact absurd hsi hid
        · obtain ⟨s'', hs'', hsi''⟩ := ih (s.id :: seen) ⟨s', hrest, hsi⟩
            (by
              intro hx
              rcases List.mem_cons.mp hx with h | h
              · exact hid h.symm
              · exact hni h)
          exact ⟨s'', List.mem_cons_of_mem _ hs'', hsi''⟩

/-! ### Slug-function lemmas (claim C8) -/

theorem replaceFuel_succ_cons (p r : List Char) (fuel : Nat) (c : Char) (cs : List Char) :
    replaceFuel p r (fuel + 1) (c :: cs)
      = if p ≠ [] ∧ p.isPrefixOf (c :: cs) then
          r ++ replaceFuel p r fuel ((c :: cs).drop p.length)
        else
          c :: replaceFuel p r fuel cs := rfl

theorem collapseOnce_cons2 (c1 c2 : Char) (rest : List Char) :
    collapseOnce (c1 :: c2 :: rest)
      = if c1 = '_' ∧ c2 = '_' then '_' :: collapseOnce rest
        else c1 :: collapseOnce (c2 :: rest) := rfl

theorem replaceFuel_nil (p r : List Char) : ∀ fuel, replaceFuel p r fuel [] = [] := by
  intro fuel
  cases fuel <;> rfl

theorem replaceFuel_single (pc rc : Char) :
    ∀ (fuel : Nat) (l : List Char), l.length ≤ fuel →
      replaceFuel [pc] [rc] fuel l = l.map (fun c => if c = pc then rc else c) := by
  intro fuel
  induction fuel with
  | zero =>
    intro l hl
    cases l with
    | nil => rfl
    | cons c cs => simp at hl
  | succ fuel ih =>
    intro l hl
    cases l with
    | nil => rfl
    | cons c cs =>
      have hcs : cs.length ≤ fuel := by
        simp only [List.length_cons] at hl
        omega
      by_cases hc : c = pc
      · subst hc
        have hcond : (([c] : List Char) ≠ [] ∧ [c].isPrefixOf (c :: cs)) :=
          ⟨by simp, by simp [List.isPrefixOf]⟩
        rw [replaceFuel_succ_cons, if_pos hcond,
          show List.drop ([c] : List Char).length (c :: cs) = cs from rfl,
          ih cs hcs]
        simp
      · have hcond : ¬ (([pc] : List Char) ≠ [] ∧ [pc].isPrefixOf (c :: cs)) := by
          rintro ⟨-, hpre⟩
          simp only [List.isPrefixOf, List.isPrefixOf_nil_left, Bool.and_true,
            beq_iff_eq] at hpre
          exact hc hpre.symm
        rw [replaceFuel_succ_cons, if_neg hcond, ih cs hcs]
        simp [hc]

theorem replaceFuel_double :
    ∀ (fuel : Nat) (l : List Char), l.length ≤ fuel →
      replaceFuel ['_', '_'] ['_'] fuel l = collapseOnce l := by
  intro fuel
  induction fuel with
  | zero =>
    intro l hl
    cases l with
    | nil => rfl
    | cons c cs => simp at hl
  | succ fuel ih =>
    intro l hl
    match l with
    | [] => rfl
    | [c] =>
      have hcond : ¬ ((['_', '_'] : List Char) ≠ []
          ∧ (['_', '_'] : List Char).isPrefixOf [c]) := by
        rintro ⟨-, hpre⟩
        simp [List.isPrefixOf] at hpre
      rw [replaceFuel_succ_cons, if_neg hcond, replaceFuel_nil]
      rfl
    | c1 :: c2 :: rest =>
      by_cases h : c1 = '_' ∧ c2 = '_'
      · obtain ⟨h1, h2⟩ := h
        subst h1
        subst h2
        have hcond : ((['_', '_'] : List Char) ≠ []
            ∧ (['_', '_'] : List Char).isPrefixOf ('_' :: '_' :: rest)) :=
          ⟨by simp, by simp [List.isPrefixOf]⟩
        have hlen : rest.length ≤ fuel := by
          simp only [List.length_cons] at hl
          omega
        rw [replaceFuel_succ_cons, if_pos hcond,
          show (('_' :: '_' :: rest : List Char)).drop (['_', '_'] : List Char).length
            = rest from rfl,
          ih rest hlen, collapseOnce_cons2, if_pos ⟨rfl, rfl⟩]
        rfl
      · have hcond : ¬ ((['_', '_'] : List Char) ≠ []
            ∧ (['_', '_'] : List Char).isPrefixOf (c1 :: c2 :: rest)) := by
          rintro ⟨-, hpre⟩
          simp only [List.isPrefixOf, List.isPrefixOf_nil_left, Bool.and_true,
            Bool.and_eq_true, beq_iff_eq] at hpre
          exact h ⟨hpre.1.symm, hpre.2.symm⟩
        have hlen : (c2 :: rest).length ≤ fuel := by
          simp only [List.length_cons] at hl ⊢
          omega
        rw [replaceFuel_succ_cons, if_neg hcond, ih (c2 :: rest) hlen,
          collapseOnce_cons2, if_neg h]

theorem dash_chain (c : Char) :
    (fun x => if x = '\u2013' then '_' else x)
      ((fun x => if x = ' ' then '_' else x)
        ((fun x => if x = '-' then '_' else x) c)) = dashToUnderscore c := by
  by_cases h1 : c = '-'
  · subst h1
    decide
  by_cases h2 : c = ' '
  · subst h2
    decide
  by_cases h3 : c = '\u2013'
  · subst h3
    decide
  simp [dashToUnderscore, h1, h2, h3]

theorem replaceCore_single (pc rc : Char) (l : List Char) :
    replaceCore [pc] [rc] l = l.map (fun c => if c = pc then rc else c) :=
  replaceFuel_single pc rc l.length l (le_refl _)

theorem replaceCore_double (l : List Char) :
    replaceCore ['_', '_'] ['_'] l = collapseOnce l :=
  replaceFuel_double l.length l (le_refl _)

theorem map_dash (l : List Char) :
    ((l.map (fun x => if x = '-' then '_' else x)).map
        (fun x => if x = ' ' then '_' else x)).map
        (fun x => if x = '–' then '_' else x)
      = l.map dashToUnderscore := by
  induction l with
  | nil => rfl
  | cons c cs ih =>
    simp only [List.map_cons, ih]
    congr 1
    have h := dash_chain c
    simpa using h

theorem makeSlug_eq_normalization (t : String) :
    makeSlug t
      = String.mk (stripChar '_'
          (collapseOnce (((pyLower t).toList).map dashToUnderscore))) := by
  unfold makeSlug
  rw [replaceCore_single '-' '_', replaceCore_single ' ' '_',
    replaceCore_single '–' '_', replaceCore_double, map_dash]

/-! ### Claims -/

/-- Claim C3: on the five-nugget demo fixture with the built-in two-archetype
catalog, `generate` returns exactly 2 semantic view blueprints and exactly 2
agent blueprints: one agent with `agent_type` `"reporting"` whose name
contains `"Finance"`, and one agent with `agent_type` `"tagging"` whose
semantic view's domains contain both `"governance"` and `"pii"` and whose
`nugget_ids` contain `eval.pii_edge_cases`. -/
theorem C3_demo_fixture :
    (generate demoNuggets ARCHETYPES).semantic_view_blueprints.length = 2
    ∧ (generate demoNuggets ARCHETYPES).agent_blueprints.length = 2
    ∧ (∃ ab ∈ (generate demoNuggets ARCHETYPES).agent_blueprints,
        ab.agent_type = "reporting"
        ∧ containsSub "Finance".toList ab.name.toList = true)
    ∧ (∃ ab ∈ (generate demoNuggets ARCHETYPES).agent_blueprints,
        ab.agent_type = "tagging"
        ∧ ∃ sv ∈ (generate demoNuggets ARCHETYPES).semantic_view_blueprints,
            sv.id = ab.semantic_view_id
            ∧ "governance" ∈ sv.domains
            ∧ "pii" ∈ sv.domains
            ∧ "eval.pii_edge_cases" ∈ sv.nugget_ids) := by
  decide

/-- Claim C2: deduplication is loss-free — for each agent type the union of
`nugget_ids` over the post-deduplication merged blueprints equals the union
over the pre-deduplication pairs, and every domain tag that produced a match
for a surviving pair's (agent_type, nugget-set) key appears in that pair's
`domains` list exactly once (no duplicates, no omissions). -/
theorem C2_dedup_conservation (ns : List Nugget) (arch : List AgentArchetype) :
    (∀ t, nuggetUnion t (prePairs ns arch) = nuggetUnion t (dedup (prePairs ns arch)))
    ∧ (∀ q ∈ dedup (prePairs ns arch),
        q.1.domains.Nodup
        ∧ ∀ d, (d ∈ q.1.domains
            ↔ ∃ p ∈ prePairs ns arch, keyOf p = keyOf q ∧ d ∈ p.1.domains)) := by
  obtain ⟨hkeys, horig, hrep, hdom, hlink⟩ := dedup_prePairs_inv ns arch
  constructor
  · intro t
    apply Finset.ext
    intro i
    unfold nuggetUnion
    simp only [List.mem_toFinset, List.mem_flatMap, List.mem_filter, beq_iff_eq]
    constructor
    · rintro ⟨p, ⟨hp, ht⟩, hi⟩
      obtain ⟨q, hq, hk⟩ := hrep p hp
      refine ⟨q, ⟨hq, ?_⟩, ?_⟩
      · have hat : q.2.agent_type = p.2.agent_type := congrArg Prod.fst hk
        rw [hat, ht]
      · have hset : q.1.nugget_ids.toFinset = p.1.nugget_ids.toFinset :=
          congrArg Prod.snd hk
        have hmem : i ∈ p.1.nugget_ids.toFinset := List.mem_toFinset.mpr hi
        rw [← hset] at hmem
        exact List.mem_toFinset.mp hmem
    · rintro ⟨q, ⟨hq, ht⟩, hi⟩
      obtain ⟨p, hp, hc⟩ := horig q hq
      refine ⟨p, ⟨hp, ?_⟩, ?_⟩
      · rw [← hc.2.2.2.1, ht]
      · rw [← hc.1]
        exact hi
  · intro q hq
    exact hdom q hq

/-- Witness for C2 at the demo fixture and its surviving merged tagging
pair. -/
theorem C2_witness :
    (nuggetUnion "tagging" (prePairs demoNuggets ARCHETYPES)
      = nuggetUnion "tagging" (dedup (prePairs demoNuggets ARCHETYPES)))
    ∧ (demoMergedPair.1.domains.Nodup
       ∧ ∀ d, (d ∈ demoMergedPair.1.domains
          ↔ ∃ p ∈ prePairs demoNuggets ARCHETYPES,
              keyOf p = keyOf demoMergedPair ∧ d ∈ p.1.domains)) :=
  ⟨(C2_dedup_conservation demoNuggets ARCHETYPES).1 "tagging",
   (C2_dedup_conservation demoNuggets ARCHETYPES).2 demoMergedPair (by decide)⟩

/-- Claim C4: `generate` is deterministic — it is a pure function of the
nugget list and the archetype catalog, so any two calls over equal inputs
(same engine or independently constructed engines) return equal output. -/
theorem C4_determinism (ns₁ ns₂ : List Nugget) (arch₁ arch₂ : List AgentArchetype)
    (h1 : ns₁ = ns₂) (h2 : arch₁ = arch₂) :
    generate ns₁ arch₁ = generate ns₂ arch₂ := by
  subst h1
  subst h2
  rfl

/-- Witness for C4 at the demo fixture. -/
theorem C4_witness :
    generate demoNuggets ARCHETYPES = generate demoNuggets ARCHETYPES :=
  C4_determinism demoNuggets demoNuggets ARCHETYPES ARCHETYPES rfl rfl

/-- Counterexample to claim C5 as stated: with domain tags `"a b"` and
`"a_b"` (which slug identically) the output holds two semantic views with
the same id, so an agent's `semantic_view_id` matches *two* semantic views,
not exactly one. -/
theorem C5_counterexample :
    ∃ ab ∈ (generate c5Nuggets ARCHETYPES).agent_blueprints,
      ((generate c5Nuggets ARCHETYPES).semantic_view_blueprints.filter
        (fun sv => sv.id == ab.semantic_view_id)).length = 2 := by
  decide

/-- Claim C5 (amended): every agent blueprint's `semantic_view_id` resolves
to the id of at least one semantic view blueprint in the same output
(including after merges); it need not resolve to *exactly* one, since
distinct domain tags can normalize to the same slug and hence the same
semantic view id (see the counterexample). -/
theorem C5_referential_integrity (ns : List Nugget) (arch : List AgentArchetype) :
    ∀ ab ∈ (generate ns arch).agent_blueprints,
      ∃ sv ∈ (generate ns arch).semantic_view_blueprints,
        sv.id = ab.semantic_view_id := by
  intro ab hab
  obtain ⟨-, -, -, -, hlink⟩ := dedup_prePairs_inv ns arch
  have hab' : ab ∈ (dedup (prePairs ns arch)).map (fun p => p.2) := hab
  rw [List.mem_map] at hab'
  obtain ⟨q, hq, hqe⟩ := hab'
  refine ⟨q.1, ?_, ?_⟩
  · exact List.mem_map_of_mem (fun p => p.1) hq
  · rw [← hqe]
    exact (hlink q hq).symm

/-- Witness for the amended C5 at the demo fixture's first agent. -/
theorem C5_witness :
    ∃ sv ∈ (generate demoNuggets ARCHETYPES).semantic_view_blueprints,
      sv.id = demoAgent.semantic_view_id :=
  C5_referential_integrity demoNuggets ARCHETYPES demoAgent (by decide)

/-- Counterexample to claim C8 as stated: the slug function does not replace
the em-dash `—` (U+2014); only the en-dash `–` (U+2013) is handled. -/
theorem C8_counterexample :
    makeSlug "a—b" = "a—b" ∧ makeSlug "a—b" ≠ "a_b" := by
  decide

/-- Claim C8 (amended): the slug function lowercases its input, replaces
every space, hyphen and en-dash — but not the em-dash — with an underscore,
makes one left-to-right pass replacing each non-overlapping doubled
underscore with a single one (`collapseOnce`), and strips leading/trailing
underscores; it is applied to `domain ++ "_" ++ archetype.key` for the
initial blueprint ids and re-applied to the sorted, underscore-joined
merged domain list plus archetype key during deduplication merges. -/
theorem C8_slug_normalization :
    (∀ t : String,
        makeSlug t
          = String.mk (stripChar '_'
              (collapseOnce (((pyLower t).toList).map dashToUnderscore))))
    ∧ (∀ (domain : String) (A : AgentArchetype) (skills : List SkillNugget)
          (evals : List EvaluationNugget),
        (buildBlueprints domain A skills evals).1.id
            = "svb." ++ makeSlug (domain ++ "_" ++ A.key)
        ∧ (buildBlueprints domain A skills evals).2.id
            = "agent." ++ makeSlug (domain ++ "_" ++ A.key))
    ∧ (∀ e p : Pair,
        (mergePair e p).1.id
            = "svb." ++ makeSlug (String.intercalate "_"
                (sortStrings (appendNew e.1.domains p.1.domains))
                ++ "_" ++ p.2.agent_type)
        ∧ (mergePair e p).2.id
            = "agent." ++ makeSlug (String.intercalate "_"
                (sortStrings (appendNew e.1.domains p.1.domains))
                ++ "_" ++ p.2.agent_type)) := by
  refine ⟨makeSlug_eq_normalization,
    fun domain A skills evals => ⟨rfl, rfl⟩,
    fun e p => ⟨rfl, rfl⟩⟩

/-- Counterexample to claim C9 as stated: an empty-`domain_tags` nugget is
inert as an object, but its *id* can still appear in an output blueprint
when another input nugget carries the same id. -/
theorem C9_counterexample :
    c9Inert.domain_tags = []
    ∧ Nugget.skill c9Inert ∈ c9Nuggets
    ∧ ∃ sv ∈ (generate c9Nuggets ARCHETYPES).semantic_view_blueprints,
        c9Inert.id ∈ sv.nugget_ids := by
  decide

/-- Counterexample to claim C10 as stated: a skill nugget all of whose
domain tags lie in the reserved set — vacuously, because its tag list is
empty — is *not* offered to the non-reserved domain cluster `"d"`. -/
theorem C10_counterexample :
    c10Inert.domain_tags = []
    ∧ "d" ∈ sortedTargetDomains c10Nuggets
    ∧ c10Inert ∉ (collectCluster c10Nuggets "d").1 := by
  decide

/-- Claim C9 (amended): a nugget whose `domain_tags` list is empty is
silently inert — the (total, hence exception-free) `generate` pipeline puts
it in no domain bucket, no shared-skill set and no domain cluster; and,
provided no *other* input nugget reuses its id, its id appears in no output
blueprint's id lists. -/
theorem C9_empty_tags_inert (ns : List Nugget) (n : Nugget)
    (_hmem : n ∈ ns) (hempty : n.tags = []) :
    (∀ t, n ∉ bucket ns t)
    ∧ (∀ s : SkillNugget, Nugget.skill s = n → s ∉ sharedSkills ns)
    ∧ (∀ d, (∀ s : SkillNugget, Nugget.skill s = n → s ∉ (collectCluster ns d).1)
        ∧ (∀ e : EvaluationNugget, Nugget.eval e = n → e ∉ (collectCluster ns d).2))
    ∧ ((∀ m ∈ ns, m ≠ n → m.nid ≠ n.nid) →
        ∀ arch : List AgentArchetype,
          (∀ sv ∈ (generate ns arch).semantic_view_blueprints,
            n.nid ∉ sv.nugget_ids ∧ n.nid ∉ sv.skill_nugget_ids
              ∧ n.nid ∉ sv.evaluation_nugget_ids)
          ∧ (∀ ab ∈ (generate ns arch).agent_blueprints,
              n.nid ∉ ab.evaluation_nugget_ids)) := by
  have hbucket : ∀ t, n ∉ bucket ns t := by
    intro t ht
    have h := (mem_bucket.mp ht).2
    rw [hempty] at h
    simp at h
  have hshared : ∀ s : SkillNugget, Nugget.skill s = n → s ∉ sharedSkills ns := by
    intro s hsn hs
    obtain ⟨-, t, htm, -⟩ := mem_sharedSkills.mp hs
    have he : s.domain_tags = [] := by
      have h := hempty
      rw [← hsn] at h
      exact h
    rw [he] at htm
    simp at htm
  have hclus_s : ∀ d, ∀ s : SkillNugget,
      Nugget.skill s = n → s ∉ (collectCluster ns d).1 := by
    intro d s hsn hs
    have he : s.domain_tags = [] := by
      have h := hempty
      rw [← hsn] at h
      exact h
    rcases (mem_collectCluster_skills hs).2 with h1 | ⟨t, ht, -⟩
    · rw [he] at h1
      simp at h1
    · rw [he] at ht
      simp at ht
  have hclus_e : ∀ d, ∀ e : EvaluationNugget,
      Nugget.eval e = n → e ∉ (collectCluster ns d).2 := by
    intro d e hen hev
    have he : e.domain_tags = [] := by
      have h := hempty
      rw [← hen] at h
      exact h
    have hd := (mem_collectCluster_evals hev).2
    rw [he] at hd
    simp at hd
  refine ⟨hbucket, hshared,
    fun d => ⟨fun s hs => hclus_s d s hs, fun e he => hclus_e d e he⟩, ?_⟩
  intro huniq arch
  have hnoid : ∀ d, d ∈ sortedTargetDomains ns →
      ¬ ((∃ s ∈ (collectCluster ns d).1, s.id = n.nid)
        ∨ (∃ e ∈ (collectCluster ns d).2, e.id = n.nid)) := by
    intro d _ hcase
    rcases hcase with ⟨s, hs, hsi⟩ | ⟨e, he, hei⟩
    · by_cases hsn : Nugget.skill s = n
      · exact hclus_s d s hsn hs
      · exact huniq (Nugget.skill s) (mem_collectCluster_skills hs).1 hsn hsi
    · by_cases hen : Nugget.eval e = n
      · exact hclus_e d e hen he
      · exact huniq (Nugget.eval e) (mem_collectCluster_evals he).1 hen hei
  constructor
  · intro sv hsv
    refine ⟨fun hi => ?_, fun hi => ?_, fun hi => ?_⟩
    · obtain ⟨d, hd, hcase⟩ := output_id_origin (Or.inl ⟨sv, hsv, Or.inl hi⟩)
      exact hnoid d hd hcase
    · obtain ⟨d, hd, hcase⟩ := output_id_origin (Or.inl ⟨sv, hsv, Or.inr (Or.inl hi)⟩)
      exact hnoid d hd hcase
    · obtain ⟨d, hd, hcase⟩ := output_id_origin (Or.inl ⟨sv, hsv, Or.inr (Or.inr hi)⟩)
      exact hnoid d hd hcase
  · intro ab hab hi
    obtain ⟨d, hd, hcase⟩ := output_id_origin (Or.inr ⟨ab, hab, hi⟩)
    exact hnoid d hd hcase

/-- Witness for the amended C9: the empty-tag skill `c10Inert` inside
`c10Nuggets`, whose id `"s0"` is unique there. -/
theorem C9_witness :
    (∀ t, Nugget.skill c10Inert ∉ bucket c10Nuggets t)
    ∧ (∀ s : SkillNugget, Nugget.skill s = Nugget.skill c10Inert →
        s ∉ sharedSkills c10Nuggets)
    ∧ (∀ d, (∀ s : SkillNugget, Nugget.skill s = Nugget.skill c10Inert →
          s ∉ (collectCluster c10Nuggets d).1)
        ∧ (∀ e : EvaluationNugget, Nugget.eval e = Nugget.skill c10Inert →
          e ∉ (collectCluster c10Nuggets d).2))
    ∧ ((∀ m ∈ c10Nuggets, m ≠ Nugget.skill c10Inert →
          m.nid ≠ (Nugget.skill c10Inert).nid) →
        ∀ arch : List AgentArchetype,
          (∀ sv ∈ (generate c10Nuggets arch).semantic_view_blueprints,
            (Nugget.skill c10Inert).nid ∉ sv.nugget_ids
              ∧ (Nugget.skill c10Inert).nid ∉ sv.skill_nugget_ids
              ∧ (Nugget.skill c10Inert).nid ∉ sv.evaluation_nugget_ids)
          ∧ (∀ ab ∈ (generate c10Nuggets arch).agent_blueprints,
              (Nugget.skill c10Inert).nid ∉ ab.evaluation_nugget_ids)) :=
  C9_empty_tags_inert c10Nuggets (Nugget.skill c10Inert) (by decide) (by decide)

/-- Claim C10 (amended): an evaluation nugget all of whose domain tags lie
in the reserved set `{shared, infra}` joins no non-reserved domain cluster
and — provided no other input nugget reuses its id — its id appears in no
output blueprint; a *skill* nugget with a nonempty, all-reserved tag list is
classified as shared and its id is offered to every domain cluster. -/
theorem C10_shared_scope (ns : List Nugget) (arch : List AgentArchetype) :
    (∀ e : EvaluationNugget, Nugget.eval e ∈ ns →
        (∀ t ∈ e.domain_tags, t ∈ reservedTags) →
        (∀ d, d ∉ reservedTags → e ∉ (collectCluster ns d).2)
        ∧ ((∀ m ∈ ns, m ≠ Nugget.eval e → m.nid ≠ e.id) →
            (∀ sv ∈ (generate ns arch).semantic_view_blueprints,
                e.id ∉ sv.nugget_ids ∧ e.id ∉ sv.skill_nugget_ids
                  ∧ e.id ∉ sv.evaluation_nugget_ids)
            ∧ (∀ ab ∈ (generate ns arch).agent_blueprints,
                e.id ∉ ab.evaluation_nugget_ids)))
    ∧ (∀ s : SkillNugget, Nugget.skill s ∈ ns → s.domain_tags ≠ [] →
        (∀ t ∈ s.domain_tags, t ∈ reservedTags) →
        s ∈ sharedSkills ns
        ∧ ∀ d, s.id ∈ (collectCluster ns d).1.map (fun x => x.id)) := by
  constructor
  · intro e hin hres
    have hnotin : ∀ d, d ∉ reservedTags → e ∉ (collectCluster ns d).2 := by
      intro d hd hev
      exact hd (hres d (mem_collectCluster_evals hev).2)
    refine ⟨hnotin, ?_⟩
    intro huniq
    have hnoid : ∀ d, d ∈ sortedTargetDomains ns →
        ¬ ((∃ s ∈ (collectCluster ns d).1, s.id = e.id)
          ∨ (∃ x ∈ (collectCluster ns d).2, x.id = e.id)) := by
      intro d hd hcase
      have hdres : d ∉ reservedTags := (mem_sortedTargetDomains.mp hd).1
      rcases hcase with ⟨s, hs, hsi⟩ | ⟨x, hx, hxi⟩
      · have hne : Nugget.skill s ≠ Nugget.eval e := by simp
        exact huniq (Nugget.skill s) (mem_collectCluster_skills hs).1 hne hsi
      · by_cases heq : x = e
        · subst heq
          exact hnotin d hdres hx
        · have hne : Nugget.eval x ≠ Nugget.eval e := by simpa using heq
          exact huniq (Nugget.eval x) (mem_collectCluster_evals hx).1 hne hxi
    constructor
    · intro sv hsv
      refine ⟨fun hi => ?_, fun hi => ?_, fun hi => ?_⟩
      · obtain ⟨d, hd, hcase⟩ := output_id_origin (Or.inl ⟨sv, hsv, Or.inl hi⟩)
        exact hnoid d hd hcase
      · obtain ⟨d, hd, hcase⟩ := output_id_origin (Or.inl ⟨sv, hsv, Or.inr (Or.inl hi)⟩)
        exact hnoid d hd hcase
      · obtain ⟨d, hd, hcase⟩ := output_id_origin (Or.inl ⟨sv, hsv, Or.inr (Or.inr hi)⟩)
        exact hnoid d hd hcase
    · intro ab hab hi
      obtain ⟨d, hd, hcase⟩ := output_id_origin (Or.inr ⟨ab, hab, hi⟩)
      exact hnoid d hd hcase
  · intro s hin hne hres
    have hsh : s ∈ sharedSkills ns := by
      rw [mem_sharedSkills]
      refine ⟨hin, ?_⟩
      cases hts : s.domain_tags with
      | nil => exact absurd hts hne
      | cons t ts =>
        refine ⟨t, ?_, hres t ?_⟩
        · exact List.mem_cons_self _ _
        · rw [hts]
          exact List.mem_cons_self _ _
    refine ⟨hsh, ?_⟩
    intro d
    have hstep : ∃ s' ∈ (collectCluster ns d).1, s'.id = s.id := by
      apply dedupByIdAux_id_mem
      · refine ⟨s, ?_, rfl⟩
        exact List.mem_append_right _ hsh
      · simp
    obtain ⟨s', hs', hsi⟩ := hstep
    exact List.mem_map.mpr ⟨s', hs', hsi⟩

/-- Witness for the amended C10: the reserved-only evaluation `c10wEval`
in `c10wNuggets`, and the shared demo skill `skill.query_mdlh` in the demo
fixture. -/
theorem C10_witness :
    ((∀ d, d ∉ reservedTags → c10wEval ∉ (collectCluster c10wNuggets d).2)
      ∧ ((∀ m ∈ c10wNuggets, m ≠ Nugget.eval c10wEval → m.nid ≠ c10wEval.id) →
          (∀ sv ∈ (generate c10wNuggets ARCHETYPES).semantic_view_blueprints,
              c10wEval.id ∉ sv.nugget_ids ∧ c10wEval.id ∉ sv.skill_nugget_ids
                ∧ c10wEval.id ∉ sv.evaluation_nugget_ids)
          ∧ (∀ ab ∈ (generate c10wNuggets ARCHETYPES).agent_blueprints,
              c10wEval.id ∉ ab.evaluation_nugget_ids)))
    ∧ (demoSharedSkill ∈ sharedSkills demoNuggets
      ∧ ∀ d, demoSharedSkill.id ∈ (collectCluster demoNuggets d).1.map (fun x => x.id)) :=
  ⟨(C10_shared_scope c10wNuggets ARCHETYPES).1 c10wEval (by decide) (by decide),
   (C10_shared_scope demoNuggets ARCHETYPES).2 demoSharedSkill
     (by decide) (by decide) (by decide)⟩

end BlueprintGen
